import Mathlib

/-!
Shallow embedding of `src/preprocessor.py` (OTMISC topic-modeling tool).

Python strings are modelled as `List Char` (`Str`).  Each preprocessing
transform of the module is translated to a Lean function of the same name.
External resources (the `contractions` dictionary, the NLTK stop-word corpus,
the WordNet lemmatizer) are modelled as finite tables, documented at their
definitions.  Regex-based transforms are translated to explicit scanners that
mirror Python's leftmost, non-overlapping `re.sub` semantics; character
classes (`\s`, `\S`, whitespace used by `str.split` and `str.strip`) are
modelled on their ASCII fragment.
-/

/-- A Python string, modelled as its list of characters. -/
abbrev Str := List Char

/-- ASCII whitespace recognised by Python's `str.split()` / `str.strip()` and
by the regex class `\s` (the embedding models the ASCII fragment:
space, tab, newline, carriage return, vertical tab, form feed). -/
def pyIsSpace (c : Char) : Bool :=
  c == ' ' || c == '\t' || c == '\n' || c == '\r' || c == '\x0b' || c == '\x0c'

/-- The regex class `[a-zA-Z]` used by the module's `RegexpTokenizer` and by
`keep_only_alphabet`. -/
def isAsciiLetter (c : Char) : Bool :=
  decide (('a' ≤ c ∧ c ≤ 'z') ∨ ('A' ≤ c ∧ c ≤ 'Z'))

/-- The maximal runs of characters satisfying `keep`, in order: the non-empty
pieces obtained by splitting on the characters that do not satisfy `keep`.
This is `re.findall` of the one-class-repeated pattern, and also the shape of
Python's `str.split()`. -/
def splitRuns (keep : Char → Bool) (s : Str) : List Str :=
  (s.splitOnP (fun c => !keep c)).filter (fun w => !w.isEmpty)

/-- `str.split()` with no separator: maximal runs of non-whitespace. -/
def pySplit (s : Str) : List Str := splitRuns (fun c => !pyIsSpace c) s

/-- `' '.join(words)`. -/
def joinWords (ws : List Str) : Str := List.intercalate [' '] ws

/-- `str.strip()`: drop leading and trailing whitespace. -/
def pyStrip (s : Str) : Str :=
  ((s.dropWhile pyIsSpace).reverse.dropWhile pyIsSpace).reverse

/-- `__tokenize` (line 42): `RegexpTokenizer(r'[a-zA-Z]+').tokenize(s)` — the
maximal runs of ASCII letters; every other character separates tokens and is
dropped. -/
def __tokenize (s : Str) : List Str := splitRuns isAsciiLetter s

/-- `__glue` (line 45): `' '.join(words).strip()`. -/
def __glue (words : List Str) : Str := pyStrip (joinWords words)

/-- Case table for Python's `str.lower()`, modelled on its ASCII fragment
plus a few Latin-1 letters: each pair maps an upper-case character to its
lower-case form; characters outside the table are unchanged. -/
def lowerTable : List (Char × Char) :=
  [('A', 'a'), ('B', 'b'), ('C', 'c'), ('D', 'd'), ('E', 'e'), ('F', 'f'),
   ('G', 'g'), ('H', 'h'), ('I', 'i'), ('J', 'j'), ('K', 'k'), ('L', 'l'),
   ('M', 'm'), ('N', 'n'), ('O', 'o'), ('P', 'p'), ('Q', 'q'), ('R', 'r'),
   ('S', 's'), ('T', 't'), ('U', 'u'), ('V', 'v'), ('W', 'w'), ('X', 'x'),
   ('Y', 'y'), ('Z', 'z'),
   ('À', 'à'), ('Á', 'á'), ('È', 'è'), ('É', 'é'), ('Ä', 'ä'), ('Ö', 'ö'),
   ('Ü', 'ü'), ('Ñ', 'ñ'), ('Ç', 'ç')]

def pyLowerChar (c : Char) : Char :=
  (((lowerTable.find? (fun p => p.1 == c)).map Prod.snd).getD c)

/-- `to_lowercase` (line 48): `text.lower()`, applied character by character. -/
def to_lowercase (text : Str) : Str := text.map pyLowerChar

/-- NFKD decomposition table, modelled from the Unicode data for the accented
characters exercised by the repository; every character not in the table (in
particular every ASCII character, which is NFKD-invariant) decomposes to
itself. -/
def nfkdTable : List (Char × Str) :=
  [('á', ['a', '́']), ('à', ['a', '̀']), ('â', ['a', '̂']),
   ('ä', ['a', '̈']), ('é', ['e', '́']), ('è', ['e', '̀']),
   ('ê', ['e', '̂']), ('ë', ['e', '̈']), ('í', ['i', '́']),
   ('ì', ['i', '̀']), ('î', ['i', '̂']), ('ï', ['i', '̈']),
   ('ó', ['o', '́']), ('ò', ['o', '̀']), ('ô', ['o', '̂']),
   ('ö', ['o', '̈']), ('ú', ['u', '́']), ('ù', ['u', '̀']),
   ('û', ['u', '̂']), ('ü', ['u', '̈']), ('ñ', ['n', '̃']),
   ('ç', ['c', '̧']), ('ý', ['y', '́']), ('ě', ['e', '̌']),
   ('É', ['E', '́']), ('È', ['E', '̀']), ('Ö', ['O', '̈']),
   ('Ü', ['U', '̈']), ('Ñ', ['N', '̃']), ('Ç', ['C', '̧'])]

def nfkdChar (c : Char) : Str :=
  (((nfkdTable.find? (fun p => p.1 == c)).map Prod.snd).getD [c])

/-- `standardize_accented_chars` (lines 51-52):
`unicodedata.normalize('NFKD', text).encode('ascii', 'ignore').decode(...)` —
NFKD-decompose, then drop every non-ASCII code point. -/
def standardize_accented_chars (text : Str) : Str :=
  ((text.map nfkdChar).flatten).filter (fun c => decide (c.toNat < 128))

/-- One pass of `re.sub(pre + r'\S+', '', text)` for a literal prefix `pre`,
as an explicit leftmost non-overlapping scanner.  The fuel argument (called
with the input length, which bounds the number of scan steps since every step
consumes at least one character) keeps the recursion structural. -/
def subPrefixRun (p0 : Char) (ps : Str) : Nat → Str → Str
  | 0, l => l
  | _ + 1, [] => []
  | fuel + 1, c :: cs =>
    if c == p0 && ps.isPrefixOf cs && !((cs.drop ps.length).takeWhile (fun x => !pyIsSpace x)).isEmpty then
      subPrefixRun p0 ps fuel ((cs.drop ps.length).dropWhile (fun x => !pyIsSpace x))
    else c :: subPrefixRun p0 ps fuel cs

/-- `remove_url` (lines 55-57): `re.sub(r'https?\S+', '', text)` then
`re.sub(r'www\S+', '', text)`.  Since `s` is itself a non-space character, the
pattern `https?\S+` matches exactly the same extents as `http\S+`: the literal
prefix followed by the maximal non-empty run of non-space characters. -/
def remove_url (text : Str) : Str :=
  let t1 := subPrefixRun 'h' ['t', 't', 'p'] text.length text
  subPrefixRun 'w' ['w', 'w'] t1.length t1

/-- One pass of `re.sub(sym + r'\S*', '', text)`: the symbol always matches,
followed by the (possibly empty) maximal run of non-space characters. -/
def subSymbolRun (sym : Char) : Nat → Str → Str
  | 0, l => l
  | _ + 1, [] => []
  | fuel + 1, c :: cs =>
    if c == sym then subSymbolRun sym fuel (cs.dropWhile (fun x => !pyIsSpace x))
    else c :: subSymbolRun sym fuel cs

/-- `remove_mentions` (line 63): `re.sub(r'@\S*', '', text)`. -/
def remove_mentions (text : Str) : Str := subSymbolRun '@' text.length text

/-- `remove_hashtags` (line 66): `re.sub(r'#\S*', '', text)`. -/
def remove_hashtags (text : Str) : Str := subSymbolRun '#' text.length text

/-- `keep_only_alphabet` (line 69): `re.sub(r'[^a-zA-Z]', ' ', text)`. -/
def keep_only_alphabet (text : Str) : Str :=
  text.map (fun c => if isAsciiLetter c then c else ' ')

/-- `remove_new_lines` (line 72): `re.sub(r"\\n", " ", text)` — the regex
matches the two-character sequence backslash `n` (not the newline character)
and replaces it with a space. -/
def remove_new_lines : Str → Str
  | '\\' :: 'n' :: rest => ' ' :: remove_new_lines rest
  | c :: rest => c :: remove_new_lines rest
  | [] => []

/-- Scan for the closing `>` of `re.sub(r'<.*?>', ' ', text)`: the lazy `.*?`
matches the shortest run of non-newline characters, so the match extends to
the first `>` provided no newline occurs before it.  Returns the remainder
after that `>`, or `none` when there is no match at this `<`. -/
def htmlTagRest : Str → Option Str
  | [] => none
  | c :: cs => if c == '>' then some cs else if c == '\n' then none else htmlTagRest cs

/-- `re.sub(r'<.*?>', ' ', text)` as a leftmost non-overlapping scanner, with
the input length as structural fuel. -/
def subHtmlTag : Nat → Str → Str
  | 0, l => l
  | _ + 1, [] => []
  | fuel + 1, c :: cs =>
    if c == '<' then
      match htmlTagRest cs with
      | some rest => ' ' :: subHtmlTag fuel rest
      | none => c :: subHtmlTag fuel cs
    else c :: subHtmlTag fuel cs

/-- `remove_html_tags` (line 78). -/
def remove_html_tags (text : Str) : Str := subHtmlTag text.length text

/-- `remove_extra_spaces` (line 75): `' '.join(text.split())`. -/
def remove_extra_spaces (text : Str) : Str := joinWords (pySplit text)

/-- The dictionary of the third-party `contractions` library, modelled as a
finite table restricted to the contraction exercised by this development;
`contractions.fix` returns any other single word unchanged. -/
def contractionsTable : List (Str × Str) :=
  [("don't".toList, "do not".toList)]

def contractionsFix (w : Str) : Str :=
  (((contractionsTable.find? (fun p => p.1 == w)).map Prod.snd).getD w)

/-- `expand_contractions` (line 60):
`' '.join([contractions.fix(word) for word in text.split()])`. -/
def expand_contractions (text : Str) : Str :=
  joinWords ((pySplit text).map contractionsFix)

/-- The NLTK English stop-word corpus (`stopwords.words('english')`),
modelled as the standard 179-word list. -/
def english_stop_words : List Str :=
  (["i", "me", "my", "myself", "we", "our", "ours", "ourselves", "you",
    "you're", "you've", "you'll", "you'd", "your", "yours", "yourself",
    "yourselves", "he", "him", "his", "himself", "she", "she's", "her",
    "hers", "herself", "it", "it's", "its", "itself", "they", "them",
    "their", "theirs", "themselves", "what", "which", "who", "whom",
    "this", "that", "that'll", "these", "those", "am", "is", "are", "was",
    "were", "be", "been", "being", "have", "has", "had", "having", "do",
    "does", "did", "doing", "a", "an", "the", "and", "but", "if", "or",
    "because", "as", "until", "while", "of", "at", "by", "for", "with",
    "about", "against", "between", "into", "through", "during", "before",
    "after", "above", "below", "to", "from", "up", "down", "in", "out",
    "on", "off", "over", "under", "again", "further", "then", "once",
    "here", "there", "when", "where", "why", "how", "all", "any", "both",
    "each", "few", "more", "most", "other", "some", "such", "no", "nor",
    "not", "only", "own", "same", "so", "than", "too", "very", "s", "t",
    "can", "will", "just", "don", "don't", "should", "should've", "now",
    "d", "ll", "m", "o", "re", "ve", "y", "ain", "aren", "aren't",
    "couldn", "couldn't", "didn", "didn't", "doesn", "doesn't", "hadn",
    "hadn't", "hasn", "hasn't", "haven", "haven't", "isn", "isn't", "ma",
    "mightn", "mightn't", "mustn", "mustn't", "needn", "needn't", "shan",
    "shan't", "shouldn", "shouldn't", "wasn", "wasn't", "weren",
    "weren't", "won", "won't", "wouldn", "wouldn't"] : List String).map
    String.toList

/-- `remove_english_stop_words` (lines 81-82): filter out stop words. -/
def remove_english_stop_words (tokenized_text : List Str) : List Str :=
  tokenized_text.filter (fun word => !english_stop_words.contains word)

/-- The WordNet lemmatizer (`WordNetLemmatizer().lemmatize(word, pos)`),
modelled as a finite table per part-of-speech tag covering a few inflected
forms; any word outside the table is returned unchanged, as WordNet morphy
does for unknown words. -/
def wordnetTable (pos : Char) : List (Str × Str) :=
  if pos == 'n' then
    [("apples".toList, "apple".toList), ("bananas".toList, "banana".toList),
     ("pears".toList, "pear".toList), ("fruits".toList, "fruit".toList),
     ("humans".toList, "human".toList), ("words".toList, "word".toList)]
  else if pos == 'v' then
    [("eaten".toList, "eat".toList), ("running".toList, "run".toList),
     ("went".toList, "go".toList)]
  else if pos == 'a' then
    [("better".toList, "good".toList)]
  else []

def wordnetLemmatize (pos : Char) (word : Str) : Str :=
  ((((wordnetTable pos).find? (fun p => p.1 == word)).map Prod.snd).getD word)

/-- `lemmatize` (lines 85-86); the Python signature defaults `pos` to `'n'`,
which is the value the registry dispatch passes when `lemmatize` itself is
named in a plan. -/
def lemmatize (tokenized_text : List Str) (pos : Char) : List Str :=
  tokenized_text.map (wordnetLemmatize pos)

/-- `lemmatize_verb` (lines 89-90). -/
def lemmatize_verb (tokenized_text : List Str) : List Str :=
  lemmatize tokenized_text 'v'

/-- `lemmatize_noun` (lines 93-94). -/
def lemmatize_noun (tokenized_text : List Str) : List Str :=
  lemmatize tokenized_text 'n'

/-- `lemmatize_adjective` (lines 97-98). -/
def lemmatize_adjective (tokenized_text : List Str) : List Str :=
  lemmatize tokenized_text 'a'

/-- The names bound to `types.FunctionType` values in the module's global
namespace, in definition order: every `def` of `preprocessor.py` (the
imported modules, classes and instances at lines 1-17 and the test class at
line 101 are not of `FunctionType`). -/
def moduleFunctionNames : List String :=
  ["list_available_prep_functions", "__split_iterable_on_condition",
   "__is_tokenized_method", "__tokenize", "__glue", "to_lowercase",
   "standardize_accented_chars", "remove_url", "expand_contractions",
   "remove_mentions", "remove_hashtags", "keep_only_alphabet",
   "remove_new_lines", "remove_extra_spaces", "remove_html_tags",
   "remove_english_stop_words", "lemmatize", "lemmatize_verb",
   "lemmatize_noun", "lemmatize_adjective", "__instance_preprocess",
   "__preprocess", "__check_functions_validity", "run", "__test_tweets",
   "__test_yahoo_answers"]

/-- `list_available_prep_functions` (lines 20-24): all module-level function
names, minus the excluded names, minus names starting with `__`. -/
def list_available_prep_functions (exclude : List String) : List String :=
  ((moduleFunctionNames.filter (fun f => !exclude.contains f)).filter
    (fun f => !(("__".toList).isPrefixOf f.toList)))

/-- The default `exclude` tuple of `list_available_prep_functions`. -/
def defaultExclude : List String := ["run", "list_available_prep_functions"]

/-- The registry as seen by `run` and `__check_functions_validity`. -/
def availableFunctions : List String :=
  list_available_prep_functions defaultExclude

/-- `__split_iterable_on_condition` (lines 27-35), the loop that appends each
item to `trues` or `falses`. -/
def __split_iterable_on_condition (cond : α → Bool) (iterable : List α) :
    List α × List α :=
  iterable.foldl
    (fun acc item =>
      if cond item then (acc.1 ++ [item], acc.2) else (acc.1, acc.2 ++ [item]))
    ([], [])

/-- `__is_tokenized_method` (lines 38-39):
`func_name.startswith('lemmatize') or 'stop_words' in func_name`. -/
def __is_tokenized_method (func_name : String) : Bool :=
  ("lemmatize".toList).isPrefixOf func_name.toList ||
    (func_name.toList.tails.any (fun t => ("stop_words".toList).isPrefixOf t))

/-- A Python value flowing through the dynamically-typed `reduce` chain of
`__instance_preprocess`: either a string or a list of token strings. -/
inductive PyVal where
  | s : Str → PyVal
  | l : List Str → PyVal
deriving DecidableEq, Repr

/-- The string-domain transforms of the registry, by name. -/
def stringFn (name : String) : Option (Str → Str) :=
  match name with
  | "to_lowercase" => some to_lowercase
  | "standardize_accented_chars" => some standardize_accented_chars
  | "remove_url" => some remove_url
  | "expand_contractions" => some expand_contractions
  | "remove_mentions" => some remove_mentions
  | "remove_hashtags" => some remove_hashtags
  | "keep_only_alphabet" => some keep_only_alphabet
  | "remove_new_lines" => some remove_new_lines
  | "remove_extra_spaces" => some remove_extra_spaces
  | "remove_html_tags" => some remove_html_tags
  | _ => none

/-- The token-domain transforms of the registry, by name (`lemmatize` is
called with its Python default `pos='n'`). -/
def tokenFn (name : String) : Option (List Str → List Str) :=
  match name with
  | "remove_english_stop_words" => some remove_english_stop_words
  | "lemmatize" => some (fun ts => lemmatize ts 'n')
  | "lemmatize_verb" => some lemmatize_verb
  | "lemmatize_noun" => some lemmatize_noun
  | "lemmatize_adjective" => some lemmatize_adjective
  | _ => none

/-- One step of the `reduce(lambda res, func: globals()[func](res), ...)`
chains of `__instance_preprocess` (lines 160 and 162): look the name up and
apply the function to the running value.  `none` models the dynamic failure
of applying a function to a value of the wrong shape (never reached by the
plans `run` builds) or of looking up a name that is not a function. -/
def applyNamed (name : String) (v : PyVal) : Option PyVal :=
  match stringFn name with
  | some f => match v with
    | .s str => some (.s (f str))
    | .l _ => none
  | none =>
    match tokenFn name with
    | some g => match v with
      | .l ts => some (.l (g ts))
      | .s _ => none
    | none =>
      if name == "__tokenize" then
        match v with
        | .s str => some (.l (__tokenize str))
        | .l _ => none
      else if name == "__glue" then
        match v with
        | .l ts => some (.s (__glue ts))
        | .s _ => none
      else none

/-- `__instance_preprocess` (lines 159-163): left-fold the string-method
names over the document, then, when the tokenized-method tuple is non-empty,
left-fold the tokenized-method names over the intermediate value. -/
def __instance_preprocess (str_methods tokenized_methods : List String)
    (a_str : Str) : Option PyVal := do
  let v ← str_methods.foldlM (fun v n => applyNamed n v) (PyVal.s a_str)
  if tokenized_methods.isEmpty then pure v
  else tokenized_methods.foldlM (fun v n => applyNamed n v) v

/-- `__preprocess` (lines 166-173): `pool.map` of the per-document executor
over the data; the pool collects results positionally, so this is `List.map`. -/
def __preprocess (data : List Str) (str_methods tokenized_methods : List String) :
    List (Option PyVal) :=
  data.map (__instance_preprocess str_methods tokenized_methods)

/-- `run` (lines 184-201).  The `.error` case carries the set
`set(prep_functions).difference(all_funcs)` of the `ValueError` raised by
`__check_functions_validity` (lines 176-181); an empty `prep_functions`
returns the data unchanged after a warning. -/
def run (data : List Str) (prep_functions : List String) :
    Except (Finset String) (List (Option PyVal)) :=
  if prep_functions.isEmpty then
    .ok (data.map (fun d => some (.s d)))
  else
    let unknown := prep_functions.toFinset \ availableFunctions.toFinset
    if unknown = ∅ then
      let parts := __split_iterable_on_condition __is_tokenized_method prep_functions
      let tokenized_funcs :=
        if parts.1.isEmpty then parts.1
        else "__tokenize" :: (parts.1 ++ ["__glue"])
      .ok (__preprocess data parts.2 tokenized_funcs)
    else .error unknown

/-- The (string-domain, token-domain) plan `run` builds at lines 192-195 for
a given name list, token side already bracketed with `__tokenize`/`__glue`. -/
def planned (prep_functions : List String) : List String × List String :=
  let parts := __split_iterable_on_condition __is_tokenized_method prep_functions
  (parts.2,
    if parts.1.isEmpty then parts.1 else "__tokenize" :: (parts.1 ++ ["__glue"]))

/-! ### Helper lemmas about the embedded operations -/

theorem split_iterable_eq_filters (cond : α → Bool) (l : List α) :
    __split_iterable_on_condition cond l =
      (l.filter cond, l.filter (fun x => !cond x)) := by
  have key : ∀ (l : List α) (t f : List α),
      l.foldl
        (fun acc item =>
          if cond item then (acc.1 ++ [item], acc.2) else (acc.1, acc.2 ++ [item]))
        (t, f)
        = (t ++ l.filter cond, f ++ l.filter (fun x => !cond x)) := by
    intro l
    induction l with
    | nil => intro t f; simp
    | cons x xs ih =>
      intro t f
      by_cases h : cond x
      · simp only [List.foldl_cons, h, if_pos, List.filter_cons]
        rw [ih]
        simp [h]
      · simp only [List.foldl_cons, h, if_neg, List.filter_cons]
        rw [ih]
        simp [h]
  have := key l [] []
  simpa [__split_iterable_on_condition] using this

theorem is_tokenized_method_iff (n : String) :
    __is_tokenized_method n = true ↔
      ("lemmatize".toList <+: n.toList ∨ "stop_words".toList <:+: n.toList) := by
  unfold __is_tokenized_method
  rw [Bool.or_eq_true, List.isPrefixOf_iff_prefix, List.any_eq_true]
  apply or_congr Iff.rfl
  constructor
  · rintro ⟨t, ht, hp⟩
    exact List.infix_iff_prefix_suffix.mpr
      ⟨t, List.isPrefixOf_iff_prefix.mp hp, (List.mem_tails _ _).mp ht⟩
  · intro h
    obtain ⟨t, hp, hs⟩ := List.infix_iff_prefix_suffix.mp h
    exact ⟨t, (List.mem_tails _ _).mpr hs, List.isPrefixOf_iff_prefix.mpr hp⟩

theorem splitOnP_pieces {α : Type} (p : α → Bool) :
    ∀ (l : List α), ∀ w ∈ l.splitOnP p, ∀ c ∈ w, ¬ p c := by
  intro l
  induction l with
  | nil =>
    intro w hw c hc
    rw [List.splitOnP_nil, List.mem_singleton] at hw
    subst hw
    cases hc
  | cons a l ih =>
    intro w hw c hc
    rw [List.splitOnP_cons] at hw
    by_cases ha : p a
    · rw [if_pos ha] at hw
      rcases List.mem_cons.mp hw with h | h
      · subst h; cases hc
      · exact ih w h c hc
    · rw [if_neg ha] at hw
      cases hsp : l.splitOnP p with
      | nil => exact absurd hsp (List.splitOnP_ne_nil _ _)
      | cons h0 t0 =>
        rw [hsp] at hw
        simp only [List.modifyHead] at hw
        rcases List.mem_cons.mp hw with h | h
        · subst h
          rcases List.mem_cons.mp hc with h | h
          · subst h; exact ha
          · exact ih h0 (hsp ▸ List.mem_cons_self h0 t0) c h
        · exact ih w (hsp ▸ List.mem_cons_of_mem h0 h) c hc

theorem splitRuns_pieces (keep : Char → Bool) (s : Str) :
    ∀ w ∈ splitRuns keep s, w ≠ [] ∧ ∀ c ∈ w, keep c = true := by
  intro w hw
  unfold splitRuns at hw
  rw [List.mem_filter] at hw
  obtain ⟨hmem, hne⟩ := hw
  constructor
  · simpa using hne
  · intro c hc
    have := splitOnP_pieces _ s w hmem c hc
    simpa using this

theorem intercalate_cons₂ {α : Type} (sep w w2 : List α) (ws : List (List α)) :
    List.intercalate sep (w :: w2 :: ws) =
      w ++ sep ++ List.intercalate sep (w2 :: ws) := by
  simp [List.intercalate, List.intersperse, List.append_assoc]

theorem intercalate_single {α : Type} (sep w : List α) :
    List.intercalate sep [w] = w := by
  simp [List.intercalate, List.intersperse]

theorem splitRuns_intercalate (keep : Char → Bool) (sep : Char)
    (hsep : keep sep = false) :
    ∀ (ws : List Str), (∀ w ∈ ws, w ≠ [] ∧ ∀ c ∈ w, keep c = true) →
      splitRuns keep (List.intercalate [sep] ws) = ws := by
  intro ws
  induction ws with
  | nil => intro _; simp [splitRuns, List.intercalate]
  | cons w ws ih =>
    intro h
    obtain ⟨hw_ne, hw_keep⟩ := h w (List.mem_cons_self w ws)
    have hnosep : ∀ c ∈ w, ¬ (fun c => !keep c) c = true := by
      intro c hc
      simp [hw_keep c hc]
    cases ws with
    | nil =>
      rw [intercalate_single]
      unfold splitRuns
      rw [List.splitOnP_eq_single _ _ hnosep]
      simp [hw_ne]
    | cons w2 ws2 =>
      rw [intercalate_cons₂, List.append_assoc, List.singleton_append]
      unfold splitRuns
      rw [List.splitOnP_first _ _ hnosep sep (by simp [hsep])]
      have ihh := ih (fun w hw => h w (List.mem_cons_of_mem _ hw))
      unfold splitRuns at ihh
      rw [List.filter_cons_of_pos (by simpa using hw_ne)]
      rw [ihh]

theorem pyStrip_eq_self {s : Str}
    (hh : ∀ c, s.head? = some c → pyIsSpace c = false)
    (hl : ∀ c, s.getLast? = some c → pyIsSpace c = false) :
    pyStrip s = s := by
  unfold pyStrip
  cases s with
  | nil => rfl
  | cons a t =>
    have h1 : pyIsSpace a = false := hh a rfl
    rw [List.dropWhile_cons, if_neg (by simp [h1])]
    cases hr : (a :: t).reverse with
    | nil => simp at hr
    | cons b u =>
      have hb : (a :: t).getLast? = some b := by
        rw [List.getLast?_eq_head?_reverse, hr]; rfl
      have h2 : pyIsSpace b = false := hl b hb
      rw [List.dropWhile_cons, if_neg (by simp [h2]), ← hr,
        List.reverse_reverse]

theorem head?_joinWords (w : Str) (ws : List Str) (hw : w ≠ []) :
    (joinWords (w :: ws)).head? = w.head? := by
  cases ws with
  | nil => rw [joinWords, intercalate_single]
  | cons w2 ws2 =>
    rw [joinWords, intercalate_cons₂]
    cases w with
    | nil => exact absurd rfl hw
    | cons a t => rfl

theorem getLast?_joinWords : ∀ (ws : List Str), (∀ w ∈ ws, w ≠ []) → ws ≠ [] →
    ∃ wl ∈ ws, (joinWords ws).getLast? = wl.getLast? := by
  intro ws
  induction ws with
  | nil => intro _ h; exact absurd rfl h
  | cons w ws ih =>
    intro hne _
    cases ws with
    | nil =>
      exact ⟨w, List.mem_cons_self w [], by rw [joinWords, intercalate_single]⟩
    | cons w2 ws2 =>
      obtain ⟨wl, hmem, heq⟩ :=
        ih (fun x hx => hne x (List.mem_cons_of_mem _ hx)) (by simp)
      refine ⟨wl, List.mem_cons_of_mem _ hmem, ?_⟩
      rw [joinWords, intercalate_cons₂, List.getLast?_append]
      have hwl : wl ≠ [] := hne wl (List.mem_cons_of_mem _ hmem)
      have hsome : (List.intercalate [' '] (w2 :: ws2)).getLast? = wl.getLast? := heq
      rw [hsome]
      cases hg : wl.getLast? with
      | none => exact absurd (List.getLast?_eq_none_iff.mp hg) hwl
      | some x => rfl

/-- No two consecutive spaces occur in the string. -/
def noDoubleSpace : Str → Bool
  | c :: d :: rest => !(c == ' ' && d == ' ') && noDoubleSpace (d :: rest)
  | _ => true

theorem noDoubleSpace_cons_of_ne {c : Char} (hc : c ≠ ' ') (t : Str) :
    noDoubleSpace (c :: t) = noDoubleSpace t := by
  cases t with
  | nil => rfl
  | cons d r => simp [noDoubleSpace, hc]

theorem noDoubleSpace_of_no_space :
    ∀ (w : Str), (∀ c ∈ w, c ≠ ' ') → noDoubleSpace w = true := by
  intro w
  induction w with
  | nil => intro _; rfl
  | cons a t ih =>
    intro h
    rw [noDoubleSpace_cons_of_ne (h a (List.mem_cons_self a t))]
    exact ih (fun c hc => h c (List.mem_cons_of_mem _ hc))

theorem noDoubleSpace_append (w l : Str) (hw : ∀ c ∈ w, c ≠ ' ')
    (hl : noDoubleSpace l = true) : noDoubleSpace (w ++ l) = true := by
  induction w with
  | nil => exact hl
  | cons a t ih =>
    rw [List.cons_append,
      noDoubleSpace_cons_of_ne (hw a (List.mem_cons_self a t))]
    exact ih (fun c hc => hw c (List.mem_cons_of_mem _ hc))

theorem noDoubleSpace_space_cons (l : Str)
    (hh : ∀ c, l.head? = some c → c ≠ ' ') (hl : noDoubleSpace l = true) :
    noDoubleSpace (' ' :: l) = true := by
  cases l with
  | nil => rfl
  | cons d r =>
    have hd : d ≠ ' ' := hh d rfl
    simp [noDoubleSpace, hd, hl]

theorem isAsciiLetter_not_space {c : Char} (h : isAsciiLetter c = true) :
    pyIsSpace c = false := by
  by_contra hs
  rw [Bool.not_eq_false] at hs
  unfold pyIsSpace at hs
  simp only [Bool.or_eq_true, beq_iff_eq] at hs
  rcases hs with ((((rfl | rfl) | rfl) | rfl) | rfl) | rfl <;>
    exact absurd h (by decide)

theorem isAsciiLetter_ne_space {c : Char} (h : isAsciiLetter c = true) :
    c ≠ ' ' := by
  intro hc
  subst hc
  exact absurd h (by decide)

theorem lowerTable_values_not_keys :
    ∀ p ∈ lowerTable, lowerTable.find? (fun q => q.1 == p.2) = none := by
  decide

theorem pyLowerChar_idem (c : Char) :
    pyLowerChar (pyLowerChar c) = pyLowerChar c := by
  cases hf : lowerTable.find? (fun p => p.1 == c) with
  | none =>
    have h1 : pyLowerChar c = c := by unfold pyLowerChar; rw [hf]; rfl
    rw [h1]
    exact h1
  | some p =>
    have h1 : pyLowerChar c = p.2 := by unfold pyLowerChar; rw [hf]; rfl
    have h2 : pyLowerChar p.2 = p.2 := by
      unfold pyLowerChar
      rw [lowerTable_values_not_keys p (List.mem_of_find?_eq_some hf)]
      rfl
    rw [h1, h2]

theorem nfkdTable_keys_not_ascii : ∀ p ∈ nfkdTable, 128 ≤ p.1.toNat := by
  decide

theorem nfkdChar_ascii {c : Char} (h : c.toNat < 128) : nfkdChar c = [c] := by
  unfold nfkdChar
  have hnone : nfkdTable.find? (fun p => p.1 == c) = none := by
    rw [List.find?_eq_none]
    intro p hp hbeq
    rw [beq_iff_eq] at hbeq
    have := nfkdTable_keys_not_ascii p hp
    rw [hbeq] at this
    omega
  rw [hnone]
  rfl

theorem standardize_ascii_fixed :
    ∀ (s : Str), (∀ c ∈ s, c.toNat < 128) → standardize_accented_chars s = s := by
  intro s
  induction s with
  | nil => intro _; rfl
  | cons a t ih =>
    intro h
    have ha := h a (List.mem_cons_self a t)
    show (((a :: t).map nfkdChar).flatten).filter _ = a :: t
    rw [List.map_cons, List.flatten_cons, nfkdChar_ascii ha,
      List.filter_append]
    have h1 : List.filter (fun c => decide (c.toNat < 128)) [a] = [a] := by
      simp [ha]
    rw [h1]
    have h2 := ih (fun c hc => h c (List.mem_cons_of_mem _ hc))
    show [a] ++ standardize_accented_chars t = a :: t
    rw [h2]
    rfl

theorem mem_standardize_ascii {c : Char} {s : Str}
    (h : c ∈ standardize_accented_chars s) : c.toNat < 128 := by
  unfold standardize_accented_chars at h
  have := (List.mem_filter.mp h).2
  simpa using this

theorem pySplit_pieces (s : Str) :
    ∀ w ∈ pySplit s, w ≠ [] ∧ ∀ c ∈ w, pyIsSpace c = false := by
  intro w hw
  obtain ⟨hne, hkeep⟩ := splitRuns_pieces _ s w hw
  exact ⟨hne, fun c hc => by simpa using hkeep c hc⟩

theorem pySplit_joinWords (ws : List Str)
    (h : ∀ w ∈ ws, w ≠ [] ∧ ∀ c ∈ w, pyIsSpace c = false) :
    pySplit (joinWords ws) = ws := by
  unfold pySplit joinWords
  exact splitRuns_intercalate _ ' ' (by decide) ws
    (fun w hw => ⟨(h w hw).1, fun c hc => by simp [(h w hw).2 c hc]⟩)

theorem tokenize_pieces (s : Str) :
    ∀ w ∈ __tokenize s, w ≠ [] ∧ ∀ c ∈ w, isAsciiLetter c = true :=
  splitRuns_pieces isAsciiLetter s

theorem tokenize_joinWords (ws : List Str)
    (h : ∀ w ∈ ws, w ≠ [] ∧ ∀ c ∈ w, isAsciiLetter c = true) :
    __tokenize (joinWords ws) = ws := by
  unfold __tokenize joinWords
  exact splitRuns_intercalate _ ' ' (by decide) ws h

/-- On token lists as produced by `__tokenize` (non-empty, all-letter words),
`strip` inside `__glue` is a no-op. -/
theorem glue_eq_joinWords (ws : List Str)
    (h : ∀ w ∈ ws, w ≠ [] ∧ ∀ c ∈ w, isAsciiLetter c = true) :
    __glue ws = joinWords ws := by
  unfold __glue
  cases ws with
  | nil => rfl
  | cons w ws' =>
    apply pyStrip_eq_self
    · intro c hc
      rw [head?_joinWords w ws' (h w (List.mem_cons_self w ws')).1] at hc
      have hcw : c ∈ w := List.mem_of_mem_head? hc
      exact isAsciiLetter_not_space ((h w (List.mem_cons_self w ws')).2 c hcw)
    · intro c hc
      obtain ⟨wl, hmem, heq⟩ :=
        getLast?_joinWords (w :: ws') (fun x hx => (h x hx).1) (by simp)
      rw [heq] at hc
      have hcw : c ∈ wl := List.mem_of_getLast?_eq_some hc
      exact isAsciiLetter_not_space ((h wl hmem).2 c hcw)

/-! ### Executor and registry lemmas -/

theorem applyNamed_string {n : String} {f : Str → Str}
    (h : stringFn n = some f) (s : Str) :
    applyNamed n (.s s) = some (.s (f s)) := by
  unfold applyNamed
  rw [h]

theorem applyNamed_token {n : String} {g : List Str → List Str}
    (hs : stringFn n = none) (h : tokenFn n = some g) (ts : List Str) :
    applyNamed n (.l ts) = some (.l (g ts)) := by
  unfold applyNamed
  rw [hs, h]

theorem registry_string_domain :
    availableFunctions.all
      (fun n => __is_tokenized_method n || (stringFn n).isSome) = true := by
  decide

theorem registry_token_domain :
    availableFunctions.all
      (fun n =>
        !__is_tokenized_method n || ((tokenFn n).isSome && (stringFn n).isNone)) = true := by
  decide

theorem stringFn_of_valid {n : String} (hmem : n ∈ availableFunctions)
    (htok : __is_tokenized_method n = false) : ∃ f, stringFn n = some f := by
  have := List.all_eq_true.mp registry_string_domain n hmem
  rw [htok] at this
  simp only [Bool.false_or] at this
  exact Option.isSome_iff_exists.mp this

theorem tokenFn_of_valid {n : String} (hmem : n ∈ availableFunctions)
    (htok : __is_tokenized_method n = true) :
    stringFn n = none ∧ ∃ g, tokenFn n = some g := by
  have := List.all_eq_true.mp registry_token_domain n hmem
  rw [htok] at this
  simp only [Bool.not_true, Bool.false_or, Bool.and_eq_true] at this
  exact ⟨Option.isNone_iff_eq_none.mp this.2,
    Option.isSome_iff_exists.mp this.1⟩

/-- The function a string-transform name dispatches to (identity for names
outside the string-domain registry; only used under a validity hypothesis). -/
def applyStringFn (n : String) : Str → Str := (stringFn n).getD id

/-- The function a token-transform name dispatches to. -/
def applyTokenFn (n : String) : List Str → List Str := (tokenFn n).getD id

theorem foldlM_string_names :
    ∀ (sm : List String) (s : Str), (∀ n ∈ sm, (stringFn n).isSome) →
      sm.foldlM (fun v n => applyNamed n v) (PyVal.s s)
        = some (.s (sm.foldl (fun acc n => applyStringFn n acc) s)) := by
  intro sm
  induction sm with
  | nil => intro s _; rfl
  | cons n sm ih =>
    intro s h
    obtain ⟨f, hf⟩ :=
      Option.isSome_iff_exists.mp (h n (List.mem_cons_self n sm))
    rw [List.foldlM_cons, applyNamed_string hf]
    show sm.foldlM _ (PyVal.s (f s)) = _
    rw [ih (f s) (fun m hm => h m (List.mem_cons_of_mem _ hm)),
      List.foldl_cons]
    have : applyStringFn n s = f s := by unfold applyStringFn; rw [hf]; rfl
    rw [this]

theorem foldlM_token_names :
    ∀ (tm : List String) (ts : List Str),
      (∀ n ∈ tm, (stringFn n).isNone ∧ (tokenFn n).isSome) →
      tm.foldlM (fun v n => applyNamed n v) (PyVal.l ts)
        = some (.l (tm.foldl (fun acc n => applyTokenFn n acc) ts)) := by
  intro tm
  induction tm with
  | nil => intro ts _; rfl
  | cons n tm ih =>
    intro ts h
    obtain ⟨hnone, hsome⟩ := h n (List.mem_cons_self n tm)
    obtain ⟨g, hg⟩ := Option.isSome_iff_exists.mp hsome
    rw [List.foldlM_cons,
      applyNamed_token (Option.isNone_iff_eq_none.mp hnone) hg]
    show tm.foldlM _ (PyVal.l (g ts)) = _
    rw [ih (g ts) (fun m hm => h m (List.mem_cons_of_mem _ hm)),
      List.foldl_cons]
    have : applyTokenFn n ts = g ts := by unfold applyTokenFn; rw [hg]; rfl
    rw [this]

theorem applyNamed_tokenize (s : Str) :
    applyNamed "__tokenize" (.s s) = some (.l (__tokenize s)) := rfl

theorem applyNamed_glue (ts : List Str) :
    applyNamed "__glue" (.l ts) = some (.s (__glue ts)) := rfl

theorem planned_eq (prep : List String) :
    planned prep =
      (prep.filter (fun n => !__is_tokenized_method n),
        if (prep.filter __is_tokenized_method).isEmpty then
          prep.filter __is_tokenized_method
        else "__tokenize" :: (prep.filter __is_tokenized_method ++ ["__glue"])) := by
  unfold planned
  rw [split_iterable_eq_filters]

/-- The string-domain pass of a plan: the left fold of the plan's string
transforms over the document. -/
def stringPass (prep : List String) (doc : Str) : Str :=
  (prep.filter (fun n => !__is_tokenized_method n)).foldl
    (fun acc n => applyStringFn n acc) doc

/-- The whole per-document computation of a plan: the string-domain fold,
then, when token-domain names are present, the synthesized token-domain
sequence (tokenize, the token transforms in order, rejoin). -/
def execPlan (prep : List String) (doc : Str) : Str :=
  if (prep.filter __is_tokenized_method).isEmpty then stringPass prep doc
  else
    __glue ((prep.filter __is_tokenized_method).foldl
      (fun acc n => applyTokenFn n acc) (__tokenize (stringPass prep doc)))

theorem instance_preprocess_valid (prep : List String)
    (hvalid : ∀ n ∈ prep, n ∈ availableFunctions) (doc : Str) :
    __instance_preprocess (planned prep).1 (planned prep).2 doc =
      some (.s (execPlan prep doc)) := by
  have hstr : ∀ n ∈ prep.filter (fun n => !__is_tokenized_method n),
      (stringFn n).isSome := by
    intro n hn
    rw [List.mem_filter] at hn
    obtain ⟨f, hf⟩ := stringFn_of_valid (hvalid n hn.1) (by simpa using hn.2)
    simp [hf]
  have htok : ∀ n ∈ prep.filter __is_tokenized_method,
      (stringFn n).isNone ∧ (tokenFn n).isSome := by
    intro n hn
    rw [List.mem_filter] at hn
    obtain ⟨hnone, g, hg⟩ := tokenFn_of_valid (hvalid n hn.1) hn.2
    simp [hnone, hg]
  have hp1 : (planned prep).1 = prep.filter (fun n => !__is_tokenized_method n) := by
    rw [planned_eq]
  by_cases hemp : (prep.filter __is_tokenized_method).isEmpty = true
  · have hp2 : (planned prep).2 = [] := by
      rw [planned_eq]
      show (if _ then _ else _) = _
      rw [if_pos hemp]
      exact List.isEmpty_iff.mp hemp
    rw [hp1, hp2]
    unfold __instance_preprocess
    rw [foldlM_string_names _ doc hstr]
    show some _ = _
    unfold execPlan stringPass
    rw [if_pos hemp]
  · have hp2 : (planned prep).2 =
        "__tokenize" :: (prep.filter __is_tokenized_method ++ ["__glue"]) := by
      rw [planned_eq]
      show (if _ then _ else _) = _
      rw [if_neg hemp]
    rw [hp1, hp2]
    unfold __instance_preprocess
    rw [foldlM_string_names _ doc hstr]
    show ("__tokenize" :: (prep.filter __is_tokenized_method ++ ["__glue"])).foldlM
      (fun v n => applyNamed n v) (PyVal.s (stringPass prep doc)) = _
    rw [List.foldlM_cons, applyNamed_tokenize]
    show (prep.filter __is_tokenized_method ++ ["__glue"]).foldlM _
      (PyVal.l (__tokenize (stringPass prep doc))) = _
    rw [List.foldlM_append,
      foldlM_token_names _ (__tokenize (stringPass prep doc)) htok]
    have hbind : ∀ (x : PyVal) (k : PyVal → Option PyVal),
        (some x >>= k) = k x := fun _ _ => rfl
    rw [hbind, List.foldlM_cons, applyNamed_glue, hbind, List.foldlM_nil]
    show some _ = _
    unfold execPlan
    rw [if_neg hemp]

theorem run_nil (data : List Str) :
    run data [] = .ok (data.map (fun d => some (.s d))) := rfl

theorem run_no_unknown {prep : List String} (data : List Str)
    (hval : prep.toFinset \ availableFunctions.toFinset = ∅) :
    run data prep =
      .ok (data.map (__instance_preprocess (planned prep).1 (planned prep).2)) := by
  by_cases hne : prep.isEmpty = true
  · have heq : prep = [] := List.isEmpty_iff.mp hne
    subst heq
    rw [run_nil]
    congr 1
  · show (if prep.isEmpty = true then _ else
      if prep.toFinset \ availableFunctions.toFinset = ∅ then _ else _) = _
    rw [if_neg hne, if_pos hval]
    rfl

theorem run_error_eq {prep : List String} (data : List Str)
    (hne : prep ≠ [])
    (h : prep.toFinset \ availableFunctions.toFinset ≠ ∅) :
    run data prep = .error (prep.toFinset \ availableFunctions.toFinset) := by
  show (if prep.isEmpty = true then _ else
    if prep.toFinset \ availableFunctions.toFinset = ∅ then _ else _) = _
  rw [if_neg (by simpa using hne), if_neg h]

theorem noDoubleSpace_joinWords :
    ∀ (ws : List Str), (∀ w ∈ ws, w ≠ [] ∧ ∀ c ∈ w, isAsciiLetter c = true) →
      noDoubleSpace (joinWords ws) = true := by
  intro ws
  induction ws with
  | nil => intro _; rfl
  | cons w ws ih =>
    intro h
    obtain ⟨hwne, hwl⟩ := h w (List.mem_cons_self w ws)
    have hwns : ∀ c ∈ w, c ≠ ' ' :=
      fun c hc => isAsciiLetter_ne_space (hwl c hc)
    cases ws with
    | nil =>
      rw [joinWords, intercalate_single]
      exact noDoubleSpace_of_no_space w hwns
    | cons w2 ws2 =>
      rw [joinWords, intercalate_cons₂, List.append_assoc,
        List.singleton_append]
      apply noDoubleSpace_append w _ hwns
      apply noDoubleSpace_space_cons
      · intro c hc
        have hw2 := h w2 (List.mem_cons_of_mem _ (List.mem_cons_self w2 ws2))
        rw [show List.intercalate [' '] (w2 :: ws2) = joinWords (w2 :: ws2)
          from rfl, head?_joinWords w2 ws2 hw2.1] at hc
        exact isAsciiLetter_ne_space (hw2.2 c (List.mem_of_mem_head? hc))
      · exact ih (fun x hx => h x (List.mem_cons_of_mem _ hx))

/-! ### The claims -/

/-- Claim C1: for every document list and every transform-name list
containing at least one name absent from the registry, `run` fails with the
error carrying exactly the set of ALL absent names (the Python set difference
`set(prep_functions) - all_funcs`), for every document list alike — the
error does not depend on the data, so it is raised before any document is
processed and before any parallel work is dispatched; in particular for
`["lowercase_typo", "another_typo", "to_lowercase"]` the offending-name set
is exactly `{"lowercase_typo", "another_typo"}`. -/
theorem claim_C1_validation_completeness :
    (∀ (names : List String) (data : List Str),
        (∃ n ∈ names, n ∉ availableFunctions) →
        run data names =
          .error (names.toFinset \ availableFunctions.toFinset)) ∧
      ["lowercase_typo", "another_typo", "to_lowercase"].toFinset \
          availableFunctions.toFinset =
        ({"lowercase_typo", "another_typo"} : Finset String) := by
  constructor
  · rintro names data ⟨n, hmem, hnot⟩
    apply run_error_eq data (by rintro rfl; cases hmem)
    intro hempty
    have hn : n ∈ names.toFinset \ availableFunctions.toFinset := by
      rw [Finset.mem_sdiff]
      exact ⟨List.mem_toFinset.mpr hmem,
        fun hc => hnot (List.mem_toFinset.mp hc)⟩
    rw [hempty] at hn
    exact absurd hn (Finset.not_mem_empty n)
  · decide

/-- Witness for C1 at the concrete typo list of the specification. -/
theorem claim_C1_validation_completeness_witness :
    run [] ["lowercase_typo", "another_typo", "to_lowercase"] =
      .error ({"lowercase_typo", "another_typo"} : Finset String) := by
  rw [claim_C1_validation_completeness.1
    ["lowercase_typo", "another_typo", "to_lowercase"] []
    ⟨"lowercase_typo", by decide, by decide⟩]
  rw [claim_C1_validation_completeness.2]

/-- Claim C2: the planner partitions the name list by the pure predicate
`__is_tokenized_method` alone, the token-domain and string-domain sides being
exactly the order-preserving filters of the input list, and a name is
token-domain iff it starts with `lemmatize` or contains `stop_words`. -/
theorem claim_C2_partition (names : List String) :
    __split_iterable_on_condition __is_tokenized_method names =
      (names.filter __is_tokenized_method,
        names.filter (fun n => !__is_tokenized_method n)) ∧
      ∀ n : String, __is_tokenized_method n = true ↔
        ("lemmatize".toList <+: n.toList ∨ "stop_words".toList <:+: n.toList) :=
  ⟨split_iterable_eq_filters _ _, is_tokenized_method_iff⟩

/-- Claim C3: whenever the token-domain partition is non-empty, the planned
token-domain sequence is exactly `__tokenize`, then the token names in their
original order, then `__glue`; and tokenize-then-rejoin after
`keep_only_alphabet` maps `"Just a bit more $$processing"` to
`"Just a bit more processing"`. -/
theorem claim_C3_token_sequence :
    (∀ (names : List String),
        names.filter __is_tokenized_method ≠ [] →
        (planned names).2 =
          "__tokenize" :: (names.filter __is_tokenized_method ++ ["__glue"])) ∧
      __glue (__tokenize (keep_only_alphabet
          ("Just a bit more $$processing").toList)) =
        ("Just a bit more processing").toList := by
  constructor
  · intro names h
    rw [planned_eq]
    show (if _ then _ else _) = _
    rw [if_neg (fun he => h (List.isEmpty_iff.mp he))]
  · decide

/-- Witness for C3 at a one-element token-domain plan. -/
theorem claim_C3_token_sequence_witness :
    (planned ["lemmatize"]).2 = ["__tokenize", "lemmatize", "__glue"] :=
  claim_C3_token_sequence.1 ["lemmatize"] (by decide)

/-- Claim C4: on a valid plan, the per-document executor is exactly the left
fold of the plan's string transforms over the document, followed, when the
token-domain partition is non-empty, by the synthesized token-domain sequence
(tokenize, then the token transforms folded left to right, then rejoin) on
the intermediate result. -/
theorem claim_C4_executor_fold (prep : List String) (doc : Str)
    (hvalid : ∀ n ∈ prep, n ∈ availableFunctions) :
    __instance_preprocess (planned prep).1 (planned prep).2 doc =
      some (.s
        (if (prep.filter __is_tokenized_method).isEmpty then
          (prep.filter (fun n => !__is_tokenized_method n)).foldl
            (fun acc n => applyStringFn n acc) doc
        else
          __glue ((prep.filter __is_tokenized_method).foldl
            (fun acc n => applyTokenFn n acc)
            (__tokenize
              ((prep.filter (fun n => !__is_tokenized_method n)).foldl
                (fun acc n => applyStringFn n acc) doc))))) := by
  rw [instance_preprocess_valid prep hvalid doc]
  rfl

/-- Witness for C4: a plan with one string-domain and one token-domain
transform, applied to a concrete document. -/
theorem claim_C4_executor_fold_witness :
    __instance_preprocess
        (planned ["to_lowercase", "remove_english_stop_words"]).1
        (planned ["to_lowercase", "remove_english_stop_words"]).2
        ("The Cat A").toList =
      some (.s ("cat").toList) := by
  rw [claim_C4_executor_fold ["to_lowercase", "remove_english_stop_words"]
    ("The Cat A").toList (by decide)]
  decide

/-- Claim C5: a successful `run` returns one result per document, the i-th
result being the executor applied to the i-th document — the pool collects
results positionally, so the output order matches the input order. -/
theorem claim_C5_order_preservation {data : List Str} {prep : List String}
    {res : List (Option PyVal)} (h : run data prep = .ok res) :
    res.length = data.length ∧
      ∀ i : Nat, res[i]? = (data[i]?).map
        (__instance_preprocess (planned prep).1 (planned prep).2) := by
  by_cases hval : prep.toFinset \ availableFunctions.toFinset = ∅
  · rw [run_no_unknown data hval] at h
    injection h with h
    subst h
    constructor
    · exact List.length_map _ _
    · intro i
      exact List.getElem?_map _ _ _
  · have hne : prep ≠ [] := by
      rintro rfl
      exact hval (by simp)
    rw [run_error_eq data hne hval] at h
    cases h

/-- Witness for C5 at a concrete one-document run. -/
theorem claim_C5_order_preservation_witness :
    ([some (PyVal.s ("ab").toList)] : List (Option PyVal)).length =
        ([("AB").toList] : List Str).length ∧
      ∀ i : Nat, ([some (PyVal.s ("ab").toList)] : List (Option PyVal))[i]? =
        (([("AB").toList] : List Str)[i]?).map
          (__instance_preprocess (planned ["to_lowercase"]).1
            (planned ["to_lowercase"]).2) :=
  claim_C5_order_preservation (by rfl)

/-- Claim C6: an empty transform-name list is an identity pass-through (the
module warns and skips preprocessing instead of raising); in particular
`run(["Hello World"], [])` returns `["Hello World"]`. -/
theorem claim_C6_empty_passthrough :
    (∀ data : List Str, run data [] = .ok (data.map (fun d => some (.s d)))) ∧
      run [("Hello World").toList] [] =
        .ok [some (.s ("Hello World").toList)] :=
  ⟨run_nil, rfl⟩

/-- Claim C7: the rejoin step maps an empty token list to the empty string,
and a document whose string-pass result tokenizes to zero tokens executes a
token-domain plan to the empty string without failing. -/
theorem claim_C7_zero_tokens (prep : List String) (doc : Str)
    (hvalid : ∀ n ∈ prep, n ∈ availableFunctions)
    (htok : prep.filter __is_tokenized_method ≠ [])
    (hzero : __tokenize (stringPass prep doc) = []) :
    __glue ([] : List Str) = [] ∧
      __instance_preprocess (planned prep).1 (planned prep).2 doc =
        some (.s []) := by
  refine ⟨rfl, ?_⟩
  rw [instance_preprocess_valid prep hvalid doc]
  unfold execPlan
  rw [if_neg (fun he => htok (List.isEmpty_iff.mp he)), hzero]
  have hnil : availableFunctions.all
      (fun n => (applyTokenFn n []).isEmpty) = true := by decide
  have hfold : ∀ (tm : List String), (∀ n ∈ tm, n ∈ availableFunctions) →
      tm.foldl (fun acc n => applyTokenFn n acc) ([] : List Str) = [] := by
    intro tm
    induction tm with
    | nil => intro _; rfl
    | cons n tm ih =>
      intro hv
      rw [List.foldl_cons]
      have hn : applyTokenFn n [] = [] :=
        List.isEmpty_iff.mp
          (List.all_eq_true.mp hnil n (hv n (List.mem_cons_self n tm)))
      rw [hn]
      exact ih (fun m hm => hv m (List.mem_cons_of_mem _ hm))
  rw [hfold _ (fun n hn => hvalid n (List.mem_filter.mp hn).1)]
  rfl

/-- Witness for C7: an all-punctuation document under a stop-word plan. -/
theorem claim_C7_zero_tokens_witness :
    __glue ([] : List Str) = [] ∧
      __instance_preprocess (planned ["remove_english_stop_words"]).1
          (planned ["remove_english_stop_words"]).2 ("$$$").toList =
        some (.s []) :=
  claim_C7_zero_tokens ["remove_english_stop_words"] ("$$$").toList
    (by decide) (by decide) (by decide)

/-- Claim C8: `to_lowercase`, `remove_extra_spaces` and
`standardize_accented_chars` are idempotent. -/
theorem claim_C8_idempotence (s : Str) :
    to_lowercase (to_lowercase s) = to_lowercase s ∧
      remove_extra_spaces (remove_extra_spaces s) = remove_extra_spaces s ∧
      standardize_accented_chars (standardize_accented_chars s) =
        standardize_accented_chars s := by
  refine ⟨?_, ?_, ?_⟩
  · unfold to_lowercase
    rw [List.map_map]
    exact List.map_congr_left (fun c _ => pyLowerChar_idem c)
  · unfold remove_extra_spaces
    congr 1
    exact pySplit_joinWords _ (pySplit_pieces s)
  · exact standardize_ascii_fixed _ (fun c hc => mem_standardize_ascii hc)

/-- Evaluation of the C9 scenario on the embedded pipeline: lowercasing, then
URL removal, then contraction expansion. -/
theorem run_C9_eval :
    run [("Don't is great! https://x.com").toList]
        ["to_lowercase", "remove_url", "expand_contractions"] =
      .ok [some (.s ("do not is great!").toList)] := rfl

/-- Counterexample to C9 as stated: the run does not return
`["don't is great! "]`. -/
theorem claim_C9_counterexample :
    run [("Don't is great! https://x.com").toList]
        ["to_lowercase", "remove_url", "expand_contractions"] ≠
      .ok [some (.s ("don't is great! ").toList)] := by
  intro h
  rw [run_C9_eval] at h
  simp at h

/-- Claim C9 (amended): the run returns `["do not is great!"]` — after
lowercasing and URL removal leave `"don't is great! "`, the final
`expand_contractions` step expands `don't` to `do not` and rejoins the
whitespace-split words with single spaces, dropping the trailing space. -/
theorem claim_C9_amended :
    run [("Don't is great! https://x.com").toList]
        ["to_lowercase", "remove_url", "expand_contractions"] =
      .ok [some (.s ("do not is great!").toList)] :=
  run_C9_eval

/-- Claim C10: tokenize-then-rejoin yields a string with no leading or
trailing whitespace and no two consecutive spaces, and the composition is
idempotent. -/
theorem claim_C10_tokenize_rejoin (s : Str) :
    (__glue (__tokenize s)).head?.all (fun c => !pyIsSpace c) = true ∧
      (__glue (__tokenize s)).getLast?.all (fun c => !pyIsSpace c) = true ∧
      noDoubleSpace (__glue (__tokenize s)) = true ∧
      __glue (__tokenize (__glue (__tokenize s))) = __glue (__tokenize s) := by
  have hpieces := tokenize_pieces s
  have hglue := glue_eq_joinWords _ hpieces
  refine ⟨?_, ?_, ?_, ?_⟩
  · rw [hglue]
    cases hts : __tokenize s with
    | nil => rfl
    | cons w ws =>
      have hw := hpieces w (hts ▸ List.mem_cons_self w ws)
      rw [head?_joinWords w ws hw.1]
      cases hh : w.head? with
      | none => rfl
      | some a =>
        have ha : a ∈ w := List.mem_of_mem_head? hh
        simp [isAsciiLetter_not_space (hw.2 a ha)]
  · rw [hglue]
    cases hts : __tokenize s with
    | nil => rfl
    | cons w ws =>
      obtain ⟨wl, hmem, heq⟩ := getLast?_joinWords (w :: ws)
        (fun x hx => (hpieces x (hts ▸ hx)).1) (by simp)
      rw [heq]
      cases hh : wl.getLast? with
      | none => rfl
      | some a =>
        have ha : a ∈ wl := List.mem_of_getLast?_eq_some hh
        simp [isAsciiLetter_not_space ((hpieces wl (hts ▸ hmem)).2 a ha)]
  · rw [hglue]
    exact noDoubleSpace_joinWords _ hpieces
  · have hidem : __tokenize (__glue (__tokenize s)) = __tokenize s := by
      rw [hglue]
      exact tokenize_joinWords _ hpieces
    rw [hidem]
